import Mathlib

/-!
Verification of the core of the msci electronic-structure code: the
heat-bath excitation-queue builder (`ChemSystem::setup_hci_queue`), the
connected-determinant enumerator (`ChemSystem::find_connected_dets`), and
the Green's-function machinery (`Green::construct_pdets`, `Green::cg`).

Floating-point `double` values of the chemistry part are modelled as an
abstract linearly ordered commutative ring `α` (no division occurs there);
the conjugate-gradient solver, which divides, is modelled over exact
rational complex pairs.  External collaborators (the integral table
`get_2b`, the Hamiltonian-element evaluator, the irrep product table, and
the sparse-matrix application `mul_green`) are parameters, as the spec
declares them external interfaces.
-/

/-- Decidable equality for `Except`, needed to evaluate concrete runs of the
    effectful loops by `decide`. -/
instance {ε α : Type} [DecidableEq ε] [DecidableEq α] : DecidableEq (Except ε α) := fun a b =>
  match a, b with
  | .error e1, .error e2 =>
    if h : e1 = e2 then isTrue (by rw [h]) else isFalse (by intro hc; injection hc; contradiction)
  | .error _, .ok _ => isFalse (by intro hc; injection hc)
  | .ok _, .error _ => isFalse (by intro hc; injection hc)
  | .ok a1, .ok a2 =>
    if h : a1 = a2 then isTrue (by rw [h]) else isFalse (by intro hc; injection hc; contradiction)

/-! ## Determinant model

`HalfDet` (the set of occupied spatial orbitals of one spin channel) is a
bit vector; the header defining it is not part of the sources, so it is
modelled from the spec: "bit set ⇔ orbital occupied", with equality and a
total order "defined ... on a canonical 128+-bit encoding".  We represent a
half-determinant by its canonical encoding, a natural number, so the order
is the numeric order. -/

/-- Modelled from the spec: `HalfDet::has(k)` — bit `k` is set. -/
def hdHas (h k : Nat) : Bool := h.testBit k

/-- Modelled from the spec: `HalfDet::set(k)` — set bit `k`. -/
def hdSet (h k : Nat) : Nat := h ||| 2 ^ k

/-- Modelled from the spec: `HalfDet::unset(k)` — clear bit `k`. -/
def hdUnset (h k : Nat) : Nat := if h.testBit k then h - 2 ^ k else h

/-- Modelled from the spec: `HalfDet::get_occupied_orbs()` — the set bits in
    increasing orbital order (every set bit of `h` is `< h`). -/
def occupiedOrbs (h : Nat) : List Nat := (List.range h).filter (fun k => h.testBit k)

/-- Modelled from the spec: `HalfDet::diff` — the symmetric-difference
    orbital lists (bits of `a` missing from `b`, bits of `b` missing from
    `a`), each in increasing orbital order. -/
def hdDiff (a b : Nat) : List Nat × List Nat :=
  ((List.range a).filter (fun k => a.testBit k && !(b.testBit k)),
   (List.range b).filter (fun k => b.testBit k && !(a.testBit k)))

/-- A determinant: occupied-orbital bit vectors for the up and down spin
    channels (`Det` of the source). -/
structure Det where
  up : Nat
  dn : Nat
deriving DecidableEq, Repr

/-- The set bits of a half-determinant, as a finite set. -/
def bitFinset (h : Nat) : Finset Nat := (Finset.range (h + 1)).filter (fun k => h.testBit k)

/-- Number of electrons of a determinant (popcount of both halves). -/
def elecCount (d : Det) : Nat := (bitFinset d.up).card + (bitFinset d.dn).card

/-! ## The chemistry system -/

/-- Point groups distinguished by the source (`ChemSystem::get_point_group`). -/
inductive PointGroup where
  | None : PointGroup
  | D2h : PointGroup
  | Dooh : PointGroup
deriving DecidableEq, Repr

/-- ASCII `tolower`, as used by `Util::str_equals_ci`. -/
def charLower (c : Char) : Char :=
  if 65 ≤ c.toNat ∧ c.toNat ≤ 90 then Char.ofNat (c.toNat + 32) else c

/-- `Util::str_equals_ci`: case-insensitive string equality by
    character-wise `tolower` comparison (equal length required). -/
def str_equals_ci (a b : String) : Bool :=
  a.data.map charLower == b.data.map charLower

/-- `ChemSystem::get_point_group`: case-insensitive match of the configured
    point-group string; both `"Dooh"` and `"Dih"` select `Dooh`. -/
def get_point_group (str : String) : PointGroup :=
  if str_equals_ci "D2h" str then PointGroup.D2h
  else if str_equals_ci "Dooh" str ∨ str_equals_ci "Dih" str then PointGroup.Dooh
  else PointGroup.None

/-- The state of a `ChemSystem` after `setup()`, over an abstract numeric
    type `α` standing for `double`.  `get_2b` is the external integral
    table; `get_hamiltonian_elem` is the external Hamiltonian-element
    collaborator (the spec declares it external; in the sources it is an
    unimplemented stub returning `0.0`, which is one admissible value of
    this parameter); `SQRT2`/`SQRT2_INV` are the `Util` constants (their
    values live in a header outside the sources). -/
structure ChemSystem (α : Type) where
  n_orbs : Nat
  n_up : Nat
  n_dn : Nat
  time_sym : Bool
  z : Int
  point_group : PointGroup
  orb_sym : Nat → Nat
  get_product : Nat → Nat → Nat
  get_2b : Nat → Nat → Nat → Nat → α
  get_hamiltonian_elem : Det → Det → α
  SQRT2 : α
  SQRT2_INV : α

/-- `n_elecs = n_up + n_dn` (set in `ChemSystem::setup`). -/
def ChemSystem.n_elecs {α : Type} (sys : ChemSystem α) : Nat := sys.n_up + sys.n_dn

/-- `sym_orbs[s]`: the orbitals of irrep `s`, in increasing order (built by
    pushing each orbital `0 ≤ orb < n_orbs` onto `sym_orbs[orb_sym[orb]]`). -/
def sym_orbs {α : Type} (sys : ChemSystem α) (s : Nat) : List Nat :=
  (List.range sys.n_orbs).filter (fun o => sys.orb_sym o = s)

/-! ## Two-body matrix elements and the excitation queue -/

section Chem

variable {α : Type} [LinearOrderedCommRing α]

/-- `ChemSystem::get_two_body_double` (with `no_sign = true`; the
    permutation-factor branch of the source is an empty stub). -/
def get_two_body_double (sys : ChemSystem α) (det_i det_j : Det) : α :=
  if det_i.up = det_j.up then
    let d := hdDiff det_i.dn det_j.dn
    if d.1.length ≠ 2 ∨ d.2.length ≠ 2 then 0
    else
      sys.get_2b (d.1.getD 0 0) (d.2.getD 0 0) (d.1.getD 1 0) (d.2.getD 1 0) -
        sys.get_2b (d.1.getD 0 0) (d.2.getD 1 0) (d.1.getD 1 0) (d.2.getD 0 0)
  else if det_i.dn = det_j.dn then
    let d := hdDiff det_i.up det_j.up
    if d.1.length ≠ 2 ∨ d.2.length ≠ 2 then 0
    else
      sys.get_2b (d.1.getD 0 0) (d.2.getD 0 0) (d.1.getD 1 0) (d.2.getD 1 0) -
        sys.get_2b (d.1.getD 0 0) (d.2.getD 1 0) (d.1.getD 1 0) (d.2.getD 0 0)
  else
    let du := hdDiff det_i.up det_j.up
    let dd := hdDiff det_i.dn det_j.dn
    if du.1.length ≠ 1 ∨ du.2.length ≠ 1 then 0
    else if dd.1.length ≠ 1 ∨ dd.2.length ≠ 1 then 0
    else sys.get_2b (du.1.getD 0 0) (du.2.getD 0 0) (dd.1.getD 0 0) (dd.2.getD 0 0)

/-- `ChemSystem::get_hci_queue_elem`.  Degenerate index combinations yield
    `0.0` before anything else; a same-spin pair builds two up-only
    determinants, an opposite-spin pair an up/down pair; any other index
    pattern throws `"impossible pqrs for getting hci queue elem"`. -/
def get_hci_queue_elem (sys : ChemSystem α) (p q r s : Nat) : Except String α :=
  if p = q ∨ r = s ∨ p = r ∨ q = s ∨ p = s ∨ q = r then .ok 0
  else if p < sys.n_orbs ∧ q < sys.n_orbs then
    .ok |get_two_body_double sys ⟨hdSet (hdSet 0 p) q, 0⟩ ⟨hdSet (hdSet 0 r) s, 0⟩|
  else if p < sys.n_orbs ∧ sys.n_orbs ≤ q then
    .ok |get_two_body_double sys ⟨hdSet 0 p, hdSet 0 (q - sys.n_orbs)⟩
          ⟨hdSet 0 r, hdSet 0 (s - sys.n_orbs)⟩|
  else .error "impossible pqrs for getting hci queue elem"

/-- An excitation-queue entry (`Hrs` of the source): coupling value `H` and
    destination spin-orbitals `r`, `s`. -/
structure Hrs (α : Type) where
  H : α
  r : Nat
  s : Nat
deriving DecidableEq, Repr

/-- The bucket ordering used by `setup_hci_queue`'s `std::sort` comparator
    `a.H > b.H`: we sort with the corresponding non-strict total relation
    (any `std::sort` output is non-increasing in `H`, which this refines). -/
def hrsGe {α : Type} [LinearOrderedCommRing α] (a b : Hrs α) : Prop := b.H ≤ a.H

instance : DecidableRel (hrsGe (α := α)) := fun a b => inferInstanceAs (Decidable (b.H ≤ a.H))

instance : IsTotal (Hrs α) hrsGe := ⟨fun a b => le_total b.H a.H⟩

instance : IsTrans (Hrs α) hrsGe := ⟨fun _ _ _ h1 h2 => le_trans h2 h1⟩

/-- Abnormal terminations of the queue builder: `exit(code)` or an uncaught
    C++ exception with its message. -/
inductive Fatal where
  | exited : Nat → Fatal
  | thrown : String → Fatal
deriving DecidableEq, Repr

/-- The builder's running state: the queue (one bucket per origin pair,
    keyed by the pair — the source keys by the injective pairing
    `Integrals::combine2(p, q)`), the entry counter and the running global
    maximum. -/
structure QueueState (α : Type) where
  queue : List ((Nat × Nat) × List (Hrs α))
  n_entries : Nat
  max_hci_queue_elem : α
deriving DecidableEq, Repr

/-- `[a, a+1, ..., b-1]` (a C++ `for (i = a; i < b; i++)` index list). -/
def rangeFrom (a b : Nat) : List Nat := (List.range (b - a)).map (a + ·)

/-- The same-spin origin pairs `(p, q)`, `p < q < n_orbs`, in loop order. -/
def sameSpinPairs (n : Nat) : List (Nat × Nat) :=
  (List.range n).flatMap (fun p => (rangeFrom (p + 1) n).map (fun q => (p, q)))

/-- The opposite-spin origin pairs `(p, q)`, `n_orbs + p ≤ q < 2·n_orbs`,
    in loop order. -/
def oppSpinPairs (n : Nat) : List (Nat × Nat) :=
  (List.range n).flatMap (fun p => (rangeFrom (n + p) (2 * n)).map (fun q => (p, q)))

/-- The same-spin `r`/`s` collection loop for one origin pair `(p, q)`:
    for each `r`, first the unimplemented-inversion check
    (`if (point_group == PointGroup::Dooh) exit(0)`), then every `s ≥ r` of
    irrep `sym_r` contributes an entry unless its coupling is zero. -/
def ss_collect (sys : ChemSystem α) (p q : Nat) : Except Fatal (List (Hrs α)) :=
  let sym_q := sys.get_product (sys.orb_sym p) (sys.orb_sym q)
  (List.range sys.n_orbs).foldlM (fun acc r =>
    if sys.point_group = PointGroup.Dooh then .error (.exited 0)
    else
      let sym_r := sys.get_product sym_q (sys.orb_sym r)
      (sym_orbs sys sym_r).foldlM (fun acc2 s =>
        if s < r then .ok acc2
        else
          match get_hci_queue_elem sys p q r s with
          | .error msg => .error (.thrown msg)
          | .ok H => if H = 0 then .ok acc2 else .ok (acc2 ++ [⟨H, r, s⟩])) acc) []

/-- One same-spin origin pair of `setup_hci_queue`: collect, then (if the
    bucket is non-empty) sort it descending by `H`, add its size to the
    entry count and fold its front into the running maximum. -/
def ss_step (sys : ChemSystem α) (st : QueueState α) (pq : Nat × Nat) :
    Except Fatal (QueueState α) := do
  let raw ← ss_collect sys pq.1 pq.2
  let bucket := if raw = [] then raw else List.insertionSort hrsGe raw
  match bucket with
  | [] => .ok ⟨st.queue ++ [(pq, bucket)], st.n_entries, st.max_hci_queue_elem⟩
  | e :: _ =>
      .ok ⟨st.queue ++ [(pq, bucket)], st.n_entries + bucket.length,
        max st.max_hci_queue_elem e.H⟩

/-- The opposite-spin `r`/`s` collection loop for one origin pair `(p, q)`:
    like the same-spin one but with no `s ≥ r` restriction, storing
    destination `s + n_orbs`, and bumping the entry count and the running
    maximum for every entry as it is collected. -/
def os_collect (sys : ChemSystem α) (p q : Nat) (st0 : List (Hrs α) × Nat × α) :
    Except Fatal (List (Hrs α) × Nat × α) :=
  let sym_q := sys.get_product (sys.orb_sym p) (sys.orb_sym (q - sys.n_orbs))
  (List.range sys.n_orbs).foldlM (fun st r =>
    if sys.point_group = PointGroup.Dooh then .error (.exited 0)
    else
      let sym_r := sys.get_product sym_q (sys.orb_sym r)
      (sym_orbs sys sym_r).foldlM (fun st2 s =>
        match get_hci_queue_elem sys p q r (s + sys.n_orbs) with
        | .error msg => .error (.thrown msg)
        | .ok H =>
            if H = 0 then .ok st2
            else .ok (st2.1 ++ [⟨H, r, s + sys.n_orbs⟩], st2.2.1 + 1, max st2.2.2 H)) st) st0

/-- One opposite-spin origin pair of `setup_hci_queue`. -/
def os_step (sys : ChemSystem α) (st : QueueState α) (pq : Nat × Nat) :
    Except Fatal (QueueState α) := do
  let (raw, n1, m1) ← os_collect sys pq.1 pq.2 ([], st.n_entries, st.max_hci_queue_elem)
  let bucket := if raw = [] then raw else List.insertionSort hrsGe raw
  match bucket with
  | [] => .ok ⟨st.queue ++ [(pq, bucket)], n1, m1⟩
  | e :: _ => .ok ⟨st.queue ++ [(pq, bucket)], n1 + bucket.length, max m1 e.H⟩

/-- `ChemSystem::setup_hci_queue`: all same-spin origin pairs, then all
    opposite-spin origin pairs, starting from an empty queue,
    `n_entries = 0` and `max_hci_queue_elem = 0.0`. -/
def setup_hci_queue (sys : ChemSystem α) : Except Fatal (QueueState α) := do
  let st1 ← (sameSpinPairs sys.n_orbs).foldlM (ss_step sys) ⟨[], 0, 0⟩
  (oppSpinPairs sys.n_orbs).foldlM (os_step sys) st1

/-! ## Connected-determinant enumeration (single excitations)

`ChemSystem::find_connected_dets` keeps one scratch determinant
`connected_det`, initialized to a copy of `det`, which each loop iteration
mutates in place (`unset(p).set(r)`), and which is restored
(`unset(r).set(p)`) only on the path that reaches the sink handler — the
`continue` statements of the time-reversal skips and of the magnitude
window leave it mutated, and the time-reversal canonicalization swaps its
halves before the restore.  The embedding therefore threads the scratch
determinant through a fold, exactly as the source does. -/

/-- The orbital `p` vacated at step `p_id`: the `p_id`-th occupied up
    orbital for `p_id < n_up`, else the `(p_id - n_up)`-th occupied down
    orbital. -/
def fcdP (sys : ChemSystem α) (det : Det) (p_id : Nat) : Nat :=
  if p_id < sys.n_up then (occupiedOrbs det.up).getD p_id 0
  else (occupiedOrbs det.dn).getD (p_id - sys.n_up) 0

/-- The occupancy guard of the single-excitation loop: destination `r` is
    already occupied in `det`'s channel of step `p_id`. -/
def fcdBlocked (sys : ChemSystem α) (det : Det) (p_id r : Nat) : Bool :=
  if p_id < sys.n_up then hdHas det.up r else hdHas det.dn r

/-- The in-place excitation `connected_det.up.unset(p).set(r)` (resp. `dn`)
    applied to the current scratch determinant `cd`. -/
def fcdCandidate (sys : ChemSystem α) (det : Det) (p_id r : Nat) (cd : Det) : Det :=
  if p_id < sys.n_up then ⟨hdSet (hdUnset cd.up (fcdP sys det p_id)) r, cd.dn⟩
  else ⟨cd.up, hdSet (hdUnset cd.dn (fcdP sys det p_id)) r⟩

/-- The restore `connected_det.up.unset(r).set(p)` (resp. `dn`) applied to
    the determinant that was just handed to the sink. -/
def fcdRestore (sys : ChemSystem α) (det : Det) (p_id r : Nat) (cd : Det) : Det :=
  if p_id < sys.n_up then ⟨hdSet (hdUnset cd.up r) (fcdP sys det p_id), cd.dn⟩
  else ⟨cd.up, hdSet (hdUnset cd.dn r) (fcdP sys det p_id)⟩

/-- The time-reversal normalization rescaling of the matrix element
    (source lines `if (det.up == det.dn && connected_det.up != ...)`):
    `× SQRT2_INV` from a spin-symmetric source to a non-symmetric candidate,
    `× SQRT2` in the reverse transition, unchanged otherwise; no rescaling
    without time-reversal symmetry. -/
def fcdScaled (sys : ChemSystem α) (det cd : Det) : α :=
  let m := sys.get_hamiltonian_elem det cd
  if sys.time_sym = true then
    if det.up = det.dn ∧ cd.up ≠ cd.dn then m * sys.SQRT2_INV
    else if det.up ≠ det.dn ∧ cd.up = cd.dn then m * sys.SQRT2
    else m
  else m

/-- The time-reversal canonicalization (`if (connected_det.up >
    connected_det.dn)` swap the halves and multiply the element by `z`):
    the `(determinant, matrix element)` pair handed to the sink. -/
def fcdDelivered (sys : ChemSystem α) (det cd : Det) : Det × α :=
  if sys.time_sym = true ∧ cd.dn < cd.up then
    (⟨cd.dn, cd.up⟩, fcdScaled sys det cd * (sys.z : α))
  else (cd, fcdScaled sys det cd)

/-- One `(p_id, r)` iteration of the single-excitation loop of
    `find_connected_dets`.  The state is the scratch determinant together
    with the deliveries made to the sink so far; `eps_max`/`eps_min` are the
    (already √2-prescaled, when time-reversal is on) window bounds.  Note
    that the skip paths (`continue` in the source) keep the mutated scratch
    determinant, and the restore applies to the (possibly half-swapped)
    delivered determinant, exactly as in the source. -/
def fcdStep (sys : ChemSystem α) (det : Det) (eps_max eps_min : α) (st : Det × List (Det × α))
    (pr : Nat × Nat) : Det × List (Det × α) :=
  let p_id := pr.1
  let r := pr.2
  if fcdBlocked sys det p_id r then st
  else if sys.orb_sym r ≠ sys.orb_sym (fcdP sys det p_id) then st
  else
    let cd := fcdCandidate sys det p_id r st.1
    if sys.time_sym = true ∧ cd.up = cd.dn ∧ sys.z < 0 then (cd, st.2)
    else if sys.time_sym = true ∧ cd.up = det.dn ∧ cd.dn = det.up then (cd, st.2)
    else
      let m := sys.get_hamiltonian_elem det cd
      if |m| > eps_max ∨ |m| < eps_min then (cd, st.2)
      else
        let dm := fcdDelivered sys det cd
        (fcdRestore sys det p_id r dm.1, st.2 ++ [dm])

/-- The `(p_id, r)` iteration order of the single-excitation loop. -/
def fcdSteps (sys : ChemSystem α) : List (Nat × Nat) :=
  (List.range sys.n_elecs).flatMap (fun p_id =>
    (List.range sys.n_orbs).map (fun r => (p_id, r)))

/-- `ChemSystem::find_connected_dets` (single-excitation part; the
    double-excitation part of the source is an empty stub): the list of
    `(determinant, matrix element)` pairs delivered to the sink, in order.
    The window bounds are pre-multiplied by `Util::SQRT2` when time-reversal
    symmetry is on. -/
def find_connected_dets (sys : ChemSystem α) (det : Det) (eps_max_in eps_min_in : α) :
    List (Det × α) :=
  let eps_max := if sys.time_sym = true then eps_max_in * sys.SQRT2 else eps_max_in
  let eps_min := if sys.time_sym = true then eps_min_in * sys.SQRT2 else eps_min_in
  ((fcdSteps sys).foldl (fcdStep sys det eps_max eps_min) (det, [])).2

/-! ## Green's-function solver: extended basis -/

/-- The extended-basis state of `Green::construct_pdets`: the
    determinant-to-dense-index map `pdet_to_id` (an association list
    standing for the `std::unordered_map`) and the extended determinant
    list `system.dets`. -/
structure PdetState where
  ids : List (Det × Nat)
  dets : List Det
deriving DecidableEq, Repr

/-- Lookup in the association list modelling `pdet_to_id`
    (`pdet_to_id.count(det) == 0` ⟺ the lookup yields `none`). -/
def idLookup (l : List (Det × Nat)) (d : Det) : Option Nat :=
  match l with
  | [] => none
  | (k, v) :: t => if k = d then some v else idLookup t d

/-- The body of the `count == 0` check of `construct_pdets`: a determinant
    not yet in the map receives the next dense index `system.dets.size()`
    and is appended to `system.dets`. -/
def insertPdet (st : PdetState) (d : Det) : PdetState :=
  match idLookup st.ids d with
  | some _ => st
  | none => ⟨st.ids ++ [(d, st.dets.length)], st.dets ++ [d]⟩

/-- `Green::construct_pdets`: for every stored primary determinant and
    every orbital `k < n_orbs`, try inserting an electron at `k` in the up
    channel and then in the down channel (the source sets the bit in place
    and unsets it again right after the map/list update, so each candidate
    is the primary determinant with the single bit `k` added). -/
def construct_pdets (dets_store : List Det) (n_orbs : Nat) : PdetState :=
  dets_store.foldl (fun st det =>
    (List.range n_orbs).foldl (fun st2 k =>
      let st3 := if hdHas det.up k = false then insertPdet st2 ⟨hdSet det.up k, det.dn⟩ else st2
      if hdHas det.dn k = false then insertPdet st3 ⟨det.up, hdSet det.dn k⟩ else st3) st) ⟨[], []⟩

/-- `d` arises from some primary determinant of `dets_store` by inserting
    one electron into an unoccupied orbital `k < n_orbs` of one spin
    channel — the generation scheme of `construct_pdets`. -/
def IsInsertion (dets_store : List Det) (n_orbs : Nat) (d : Det) : Prop :=
  ∃ d0 ∈ dets_store, ∃ k, k < n_orbs ∧
    ((hdHas d0.up k = false ∧ d = ⟨hdSet d0.up k, d0.dn⟩) ∨
     (hdHas d0.dn k = false ∧ d = ⟨d0.up, hdSet d0.dn k⟩))

/-- `n_pdets = system.dets.size()` after `construct_pdets`. -/
def n_pdets_of (dets_store : List Det) (n_orbs : Nat) : Nat :=
  (construct_pdets dets_store n_orbs).dets.length

/-- `system.coefs.assign(n_pdets, 0.0)` at the end of `construct_pdets`. -/
def green_coefs (dets_store : List Det) (n_orbs : Nat) : List ℚ :=
  List.replicate (n_pdets_of dets_store n_orbs) 0

/-! ## Green's-function solver: conjugate gradient

`Green::cg` works on `std::complex<double>` vectors; complex numbers are
modelled as exact pairs.  `std::abs` on a complex value (an external
library routine whose result, a floating-point square root, is not exactly
representable) is a parameter `cabs`, and `SparseMatrix::mul_green` (the
external Hamiltonian-application collaborator) is a parameter `mulGreen`.
`Util::dot_omp` is modelled from the spec: the complex inner product with
no conjugation, i.e. the sum of componentwise products. -/

/-- A complex number as an exact pair (real part, imaginary part). -/
abbrev Cplx := ℚ × ℚ

/-- Complex addition. -/
def cadd (a b : Cplx) : Cplx := (a.1 + b.1, a.2 + b.2)

/-- Complex subtraction. -/
def csub (a b : Cplx) : Cplx := (a.1 - b.1, a.2 - b.2)

/-- Complex multiplication. -/
def cmul (a b : Cplx) : Cplx := (a.1 * b.1 - a.2 * b.2, a.1 * b.2 + a.2 * b.1)

/-- Complex division. -/
def cdiv (a b : Cplx) : Cplx :=
  ((a.1 * b.1 + a.2 * b.2) / (b.1 * b.1 + b.2 * b.2),
   (a.2 * b.1 - a.1 * b.2) / (b.1 * b.1 + b.2 * b.2))

/-- Complex zero. -/
def czero : Cplx := (0, 0)

/-- Modelled from the spec: `Util::dot_omp` — complex inner product with no
    conjugation. -/
def dotc (a b : List Cplx) : Cplx := (List.zipWith cmul a b).foldl cadd czero

/-- The observable final state of a normal `cg` return: the solution vector
    together with the residual and iteration count reported by the final
    `printf`. -/
structure CgResult where
  x : List Cplx
  residual : ℚ
  iter : Nat
deriving DecidableEq, Repr

/-- The `cg` convergence tolerance `1.0e-15`. -/
def cgTol : ℚ := 1 / 10 ^ 15

/-- The `while (residual > 1.0e-15)` loop of `Green::cg`.  Each pass
    updates `x`, `r`, `p`, sets `residual = |rTr|` (the magnitude of the
    self inner product computed at the top of the pass — not its square
    root), increments `iter`, and throws `"cg does not converge"` once
    `iter > 100`. -/
def cgLoop (mulGreen : List Cplx → List Cplx) (cabs : Cplx → ℚ) (x r p : List Cplx)
    (residual : ℚ) (iter : Nat) : Except String CgResult :=
  if residual > cgTol then
    let rTr := dotc r r
    let Ap := mulGreen p
    let pTAp := dotc p Ap
    let a := cdiv rTr pTAp
    let x2 := List.zipWith (fun xj pj => cadd xj (cmul a pj)) x p
    let r2 := List.zipWith (fun rj apj => csub rj (cmul a apj)) r Ap
    let rTr_new := dotc r2 r2
    let beta := cdiv rTr_new rTr
    let p2 := List.zipWith (fun rj pj => cadd rj (cmul beta pj)) r2 p
    let residual2 := cabs rTr
    if iter + 1 > 100 then .error "cg does not converge"
    else cgLoop mulGreen cabs x2 r2 p2 residual2 (iter + 1)
  else .ok ⟨x, residual, iter⟩
termination_by 101 - iter
decreasing_by omega

/-- `Green::cg`: the initial residual is `b - A·x0` (real `b` promoted to
    complex), `p = r`, `x = x0`, `residual = 1.0`, `iter = 0`; the
    zero-filled vectors the source allocates first are fully overwritten by
    these assignments. -/
def cg (mulGreen : List Cplx → List Cplx) (cabs : Cplx → ℚ) (b : List ℚ)
    (x0 : List Cplx) : Except String CgResult :=
  let r := List.zipWith (fun bi axi => csub (bi, 0) axi) b (mulGreen x0)
  cgLoop mulGreen cabs x0 r r 1 0

/-! ## Invariant predicates used by the verification -/

/-- A queue entry is healthy for origin pair `(p, q)`: its coupling is
    positive and is exactly what `get_hci_queue_elem` yields at its stored
    destination indices. -/
def entryOK (sys : ChemSystem α) (p q : Nat) (e : Hrs α) : Prop :=
  0 < e.H ∧ get_hci_queue_elem sys p q e.r e.s = .ok e.H

/-- The invariant maintained by the queue builder across origin pairs. -/
def QInv (sys : ChemSystem α) (st : QueueState α) : Prop :=
  (∀ kb ∈ st.queue, List.Sorted hrsGe kb.2) ∧
  (∀ kb ∈ st.queue, ∀ e ∈ kb.2,
    entryOK sys kb.1.1 kb.1.2 e ∧ e.H ≤ st.max_hci_queue_elem) ∧
  (st.max_hci_queue_elem = 0 ∨
    ∃ kb ∈ st.queue, ∃ e ∈ kb.2, st.max_hci_queue_elem = e.H)

/-- All the conditions that must hold for the loop iteration `(p_id, r)` of
    `find_connected_dets` to reach the sink handler, `cd` being the mutated
    scratch determinant of that iteration. -/
def fcdDeliveryCond (sys : ChemSystem α) (det : Det) (eps_max eps_min : α)
    (p_id r : Nat) (cd : Det) : Prop :=
  fcdBlocked sys det p_id r = false ∧
  sys.orb_sym r = sys.orb_sym (fcdP sys det p_id) ∧
  ¬(sys.time_sym = true ∧ cd.up = cd.dn ∧ sys.z < 0) ∧
  ¬(sys.time_sym = true ∧ cd.up = det.dn ∧ cd.dn = det.up) ∧
  eps_min ≤ |sys.get_hamiltonian_elem det cd| ∧
  |sys.get_hamiltonian_elem det cd| ≤ eps_max

/-- The structural invariant of `construct_pdets`: the extended list is
    duplicate-free and the map pairs each determinant with its position. -/
def PdetInv (st : PdetState) : Prop :=
  st.dets.Nodup ∧ st.ids = st.dets.zip (List.range st.dets.length)

end Chem

/-! ## Concrete instantiations used by witnesses and counterexamples -/

/-- A concrete 2-orbital system with trivial symmetry and a constant unit
    integral table (numeric type `ℤ` so that runs evaluate by `decide`). -/
def sysC1 : ChemSystem Int :=
  ⟨2, 1, 1, false, 1, PointGroup.None, fun _ => 0, fun _ _ => 0, fun _ _ _ _ => 1,
   fun _ _ => 0, 1, 1⟩

/-- The queue state `setup_hci_queue` produces on `sysC1`. -/
def qsC1 : QueueState Int :=
  ⟨[((0, 1), []), ((0, 2), [⟨1, 1, 3⟩]), ((0, 3), [⟨1, 1, 2⟩]), ((1, 3), [⟨1, 0, 2⟩])], 6, 1⟩

/-- A 2-orbital, one-up-electron system without time-reversal whose
    Hamiltonian-element collaborator constantly returns `5`. -/
def sysC2 : ChemSystem Int :=
  ⟨2, 1, 0, false, 1, PointGroup.None, fun _ => 0, fun _ _ => 0, fun _ _ _ _ => 1,
   fun _ _ => 5, 1, 1⟩

/-- A 3-orbital, one-up/one-down system with time-reversal enabled, unit
    Hamiltonian elements, and stand-in `Util` constants. -/
def sysC7 : ChemSystem Int :=
  ⟨3, 1, 1, true, 1, PointGroup.None, fun _ => 0, fun _ _ => 0, fun _ _ _ _ => 1,
   fun _ _ => 1, 2, 3⟩

/-- The primary basis used to witness the extended-basis claims. -/
def dsC10 : List Det := [⟨1, 1⟩]

/-- A 3-orbital, one-up-electron system without time-reversal whose
    Hamiltonian-element collaborator vanishes on one particular candidate
    (so that candidate is rejected by the window). -/
def sysC7b : ChemSystem Int :=
  ⟨3, 1, 0, false, 1, PointGroup.None, fun _ => 0, fun _ _ => 0, fun _ _ _ _ => 1,
   fun _ cd => if cd = ⟨2, 0⟩ then 0 else 1, 1, 1⟩

/-- The concrete `sysC1` system reconfigured with the point group selected
    by the string `"Dih"`. -/
def sysC3 : ChemSystem Int :=
  ⟨2, 1, 1, false, 1, get_point_group "Dih", fun _ => 0, fun _ _ => 0, fun _ _ _ _ => 1,
   fun _ _ => 0, 1, 1⟩


/-! ## Generic fold helpers -/

theorem except_bind_ok {ε β γ : Type} (x : Except ε β) (f : β → Except ε γ) (c : γ) :
    x >>= f = .ok c ↔ ∃ b, x = .ok b ∧ f b = .ok c := by
  cases x with
  | error e =>
      constructor
      · intro h; exact absurd h (by intro h; injection h)
      · rintro ⟨b, hb, -⟩; injection hb
  | ok b =>
      constructor
      · intro h; exact ⟨b, rfl, h⟩
      · rintro ⟨b2, hb, hf⟩; injection hb with hb; rwa [hb]

theorem foldlM_ok_invariant {ε β γ : Type} {P : β → Prop} (f : β → γ → Except ε β) :
    ∀ (l : List γ) (b c : β), (∀ x a y, a ∈ l → f x a = .ok y → P x → P y) →
      List.foldlM f b l = .ok c → P b → P c := by
  intro l
  induction l with
  | nil =>
      intro b c _ h hb
      rw [List.foldlM_nil] at h
      have hbc : b = c := by injection h
      rwa [← hbc]
  | cons a t ih =>
      intro b c hstep h hb
      rw [List.foldlM_cons] at h
      rcases (except_bind_ok _ _ _).mp h with ⟨b1, hfa, hrest⟩
      exact ih b1 c (fun x a2 y ha2 => hstep x a2 y (List.mem_cons_of_mem _ ha2)) hrest
        (hstep b a b1 (List.mem_cons_self _ _) hfa hb)

theorem foldl_invariant {β γ : Type} {P : β → Prop} (f : β → γ → β) :
    ∀ (l : List γ) (b : β), (∀ x a, a ∈ l → P x → P (f x a)) → P b →
      P (List.foldl f b l) := by
  intro l
  induction l with
  | nil => intro b _ hb; exact hb
  | cons a t ih =>
      intro b hstep hb
      rw [List.foldl_cons]
      exact ih (f b a) (fun x a2 ha2 => hstep x a2 (List.mem_cons_of_mem _ ha2))
        (hstep b a (List.mem_cons_self _ _) hb)

/-! ## Properties of the excitation-queue builder -/

section ChemProofs

variable {α : Type} [LinearOrderedCommRing α]

theorem get_hci_queue_elem_ok_nonneg (sys : ChemSystem α) (p q r s : Nat) (v : α)
    (h : get_hci_queue_elem sys p q r s = .ok v) : 0 ≤ v := by
  unfold get_hci_queue_elem at h
  split_ifs at h
  · injection h with h; rw [← h]
  · injection h with h; rw [← h]; exact abs_nonneg _
  · injection h with h; rw [← h]; exact abs_nonneg _

theorem get_hci_queue_elem_degenerate (sys : ChemSystem α) (p q r s : Nat)
    (h : p = q ∨ r = s ∨ p = r ∨ q = s ∨ p = s ∨ q = r) :
    get_hci_queue_elem sys p q r s = .ok 0 := by
  unfold get_hci_queue_elem
  rw [if_pos h]

theorem ss_collect_entries (sys : ChemSystem α) (p q : Nat) (raw : List (Hrs α))
    (h : ss_collect sys p q = .ok raw) : ∀ e ∈ raw, entryOK sys p q e := by
  unfold ss_collect at h
  refine foldlM_ok_invariant (P := fun acc => ∀ e ∈ acc, entryOK sys p q e) _ _ _ _
    ?_ h (fun e he => absurd he (List.not_mem_nil e))
  intro x r y _ hf hx
  split at hf
  · injection hf
  · refine foldlM_ok_invariant (P := fun acc => ∀ e ∈ acc, entryOK sys p q e) _ _ _ _
      ?_ hf hx
    intro x2 s y2 _ hf2 hx2
    split at hf2
    · injection hf2 with hf2; rwa [← hf2]
    · rcases helem : get_hci_queue_elem sys p q r s with msg | H <;> rw [helem] at hf2 <;>
        dsimp only at hf2
      · injection hf2
      · split at hf2
        · injection hf2 with hf2; rwa [← hf2]
        · next hzero =>
            injection hf2 with hf2
            rw [← hf2]
            intro e he
            rcases List.mem_append.mp he with he2 | he2
            · exact hx2 e he2
            · rcases List.mem_singleton.mp he2 with rfl
              exact ⟨lt_of_le_of_ne (get_hci_queue_elem_ok_nonneg _ _ _ _ _ _ helem)
                (fun hz => hzero hz.symm), helem⟩

theorem os_collect_props (sys : ChemSystem α) (p q : Nat) (n0 : Nat) (m0 : α)
    (raw : List (Hrs α)) (n1 : Nat) (m1 : α)
    (h : os_collect sys p q ([], n0, m0) = .ok (raw, n1, m1)) :
    (∀ e ∈ raw, entryOK sys p q e ∧ e.H ≤ m1) ∧ m0 ≤ m1 ∧
      (m1 = m0 ∨ ∃ e ∈ raw, m1 = e.H) := by
  unfold os_collect at h
  refine foldlM_ok_invariant
    (P := fun st : List (Hrs α) × Nat × α =>
      (∀ e ∈ st.1, entryOK sys p q e ∧ e.H ≤ st.2.2) ∧ m0 ≤ st.2.2 ∧
        (st.2.2 = m0 ∨ ∃ e ∈ st.1, st.2.2 = e.H)) _ _ _ _ ?_ h
    ⟨fun e he => absurd he (List.not_mem_nil e), le_refl _, Or.inl rfl⟩
  intro x r y _ hf hx
  split at hf
  · injection hf
  · refine foldlM_ok_invariant (P := fun st : List (Hrs α) × Nat × α =>
      (∀ e ∈ st.1, entryOK sys p q e ∧ e.H ≤ st.2.2) ∧ m0 ≤ st.2.2 ∧
        (st.2.2 = m0 ∨ ∃ e ∈ st.1, st.2.2 = e.H)) _ _ _ _ ?_ hf hx
    intro x2 s y2 _ hf2 hx2
    rcases helem : get_hci_queue_elem sys p q r (s + sys.n_orbs) with msg | H <;>
      rw [helem] at hf2 <;> dsimp only at hf2
    · injection hf2
    · split at hf2
      · injection hf2 with hf2; rwa [← hf2]
      · next hzero =>
          injection hf2 with hf2
          rw [← hf2]
          obtain ⟨hx2a, hx2b, hx2c⟩ := hx2
          refine ⟨?_, le_trans hx2b (le_max_left _ _), ?_⟩
          · intro e he
            rcases List.mem_append.mp he with he2 | he2
            · obtain ⟨heo, hel⟩ := hx2a e he2
              exact ⟨heo, le_trans hel (le_max_left _ _)⟩
            · rcases List.mem_singleton.mp he2 with rfl
              exact ⟨⟨lt_of_le_of_ne (get_hci_queue_elem_ok_nonneg _ _ _ _ _ _ helem)
                (fun hz => hzero hz.symm), helem⟩, le_max_right _ _⟩
          · rcases max_choice x2.2.2 H with hm | hm
            · rw [hm]
              rcases hx2c with hc | ⟨e, he, hc⟩
              · exact Or.inl hc
              · exact Or.inr ⟨e, List.mem_append_left _ he, hc⟩
            · rw [hm]
              exact Or.inr ⟨⟨H, r, s + sys.n_orbs⟩, List.mem_append_right _
                (List.mem_singleton.mpr rfl), rfl⟩

/-- Sortedness and membership of a bucket produced from raw entries `l`. -/
theorem bucket_sorted_mem (l : List (Hrs α)) :
    List.Sorted hrsGe (if l = [] then l else List.insertionSort hrsGe l) ∧
      ∀ e : Hrs α, (e ∈ (if l = [] then l else List.insertionSort hrsGe l) ↔ e ∈ l) := by
  split
  · next h => rw [h]; exact ⟨List.sorted_nil, fun e => Iff.rfl⟩
  · exact ⟨List.sorted_insertionSort hrsGe l,
      fun e => (List.perm_insertionSort hrsGe l).mem_iff⟩

/-- In a sorted non-empty bucket the front entry dominates every raw entry
    and is itself a raw entry. -/
theorem bucket_head_max (l : List (Hrs α)) (e : Hrs α) (t : List (Hrs α))
    (hb : (if l = [] then l else List.insertionSort hrsGe l) = e :: t) :
    (∀ x ∈ l, x.H ≤ e.H) ∧ e ∈ l := by
  obtain ⟨hsort, hmem⟩ := bucket_sorted_mem l
  rw [hb] at hsort hmem
  constructor
  · intro x hx
    rcases List.mem_cons.mp ((hmem x).mpr hx) with rfl | hx2
    · exact le_refl _
    · exact List.rel_of_sorted_cons hsort x hx2
  · exact (hmem e).mp (List.mem_cons_self _ _)

theorem ss_step_inv (sys : ChemSystem α) (st st2 : QueueState α) (pq : Nat × Nat)
    (h : ss_step sys st pq = .ok st2) (hst : QInv sys st) : QInv sys st2 := by
  unfold ss_step at h
  rcases (except_bind_ok _ _ _).mp h with ⟨raw, hraw, h2⟩
  have hentries := ss_collect_entries sys pq.1 pq.2 raw hraw
  obtain ⟨hs1, hs2, hs3⟩ := hst
  dsimp only at h2
  rcases hbucket : (if raw = [] then raw else List.insertionSort hrsGe raw) with _ | ⟨e, t⟩ <;>
    rw [hbucket] at h2 <;> dsimp only at h2 <;> injection h2 with h2 <;> subst h2
  · refine ⟨?_, ?_, ?_⟩
    · intro kb hkb
      rcases List.mem_append.mp hkb with hkb2 | hkb2
      · exact hs1 kb hkb2
      · rcases List.mem_singleton.mp hkb2 with rfl
        exact List.sorted_nil
    · intro kb hkb
      rcases List.mem_append.mp hkb with hkb2 | hkb2
      · exact hs2 kb hkb2
      · rcases List.mem_singleton.mp hkb2 with rfl
        intro e2 he2
        cases he2
    · rcases hs3 with hc | ⟨kb, hkb, e2, he2, hc⟩
      · exact Or.inl hc
      · exact Or.inr ⟨kb, List.mem_append_left _ hkb, e2, he2, hc⟩
  · obtain ⟨hmax, hheadmem⟩ := bucket_head_max raw e t hbucket
    have hmembucket : ∀ x : Hrs α, x ∈ e :: t ↔ x ∈ raw := by
      have := (bucket_sorted_mem raw).2
      rw [hbucket] at this
      exact this
    refine ⟨?_, ?_, ?_⟩
    · intro kb hkb
      rcases List.mem_append.mp hkb with hkb2 | hkb2
      · exact hs1 kb hkb2
      · rcases List.mem_singleton.mp hkb2 with rfl
        have := (bucket_sorted_mem raw).1
        rwa [hbucket] at this
    · intro kb hkb
      rcases List.mem_append.mp hkb with hkb2 | hkb2
      · intro e2 he2
        obtain ⟨heo, hel⟩ := hs2 kb hkb2 e2 he2
        exact ⟨heo, le_trans hel (le_max_left _ _)⟩
      · rcases List.mem_singleton.mp hkb2 with rfl
        intro e2 he2
        have he2raw : e2 ∈ raw := (hmembucket e2).mp he2
        exact ⟨hentries e2 he2raw, le_trans (hmax e2 he2raw) (le_max_right _ _)⟩
    · rcases max_choice st.max_hci_queue_elem e.H with hm | hm
      · rw [hm]
        rcases hs3 with hc | ⟨kb, hkb, e2, he2, hc⟩
        · exact Or.inl hc
        · exact Or.inr ⟨kb, List.mem_append_left _ hkb, e2, he2, hc⟩
      · rw [hm]
        exact Or.inr ⟨(pq, e :: t), List.mem_append_right _ (List.mem_singleton.mpr rfl),
          e, List.mem_cons_self _ _, rfl⟩

theorem os_step_inv (sys : ChemSystem α) (st st2 : QueueState α) (pq : Nat × Nat)
    (h : os_step sys st pq = .ok st2) (hst : QInv sys st) : QInv sys st2 := by
  unfold os_step at h
  rcases (except_bind_ok _ _ _).mp h with ⟨⟨raw, n1, m1⟩, hraw, h2⟩
  obtain ⟨hentries, hm0le, hm1⟩ := os_collect_props sys pq.1 pq.2 _ _ _ _ _ hraw
  obtain ⟨hs1, hs2, hs3⟩ := hst
  dsimp only at h2
  rcases hbucket : (if raw = [] then raw else List.insertionSort hrsGe raw) with _ | ⟨e, t⟩ <;>
    rw [hbucket] at h2 <;> dsimp only at h2 <;> injection h2 with h2 <;> subst h2
  · have hrawnil : raw = [] := by
      by_contra hne
      rw [if_neg hne] at hbucket
      have hlen := (List.perm_insertionSort hrsGe raw).length_eq
      rw [hbucket] at hlen
      exact hne (List.eq_nil_of_length_eq_zero hlen.symm)
    have hm1m0 : m1 = st.max_hci_queue_elem := by
      rcases hm1 with hc | ⟨e2, he2, -⟩
      · exact hc
      · rw [hrawnil] at he2; cases he2
    refine ⟨?_, ?_, ?_⟩
    · intro kb hkb
      rcases List.mem_append.mp hkb with hkb2 | hkb2
      · exact hs1 kb hkb2
      · rcases List.mem_singleton.mp hkb2 with rfl
        exact List.sorted_nil
    · intro kb hkb
      rcases List.mem_append.mp hkb with hkb2 | hkb2
      · intro e2 he2
        obtain ⟨heo, hel⟩ := hs2 kb hkb2 e2 he2
        exact ⟨heo, le_trans hel (hm1m0 ▸ hm0le)⟩
      · rcases List.mem_singleton.mp hkb2 with rfl
        intro e2 he2
        cases he2
    · rcases hs3 with hc | ⟨kb, hkb, e2, he2, hc⟩
      · exact Or.inl (hm1m0.trans hc)
      · exact Or.inr ⟨kb, List.mem_append_left _ hkb, e2, he2, hm1m0.trans hc⟩
  · obtain ⟨hmax, hheadmem⟩ := bucket_head_max raw e t hbucket
    have hmembucket : ∀ x : Hrs α, x ∈ e :: t ↔ x ∈ raw := by
      have := (bucket_sorted_mem raw).2
      rw [hbucket] at this
      exact this
    refine ⟨?_, ?_, ?_⟩
    · intro kb hkb
      rcases List.mem_append.mp hkb with hkb2 | hkb2
      · exact hs1 kb hkb2
      · rcases List.mem_singleton.mp hkb2 with rfl
        have := (bucket_sorted_mem raw).1
        rwa [hbucket] at this
    · intro kb hkb
      rcases List.mem_append.mp hkb with hkb2 | hkb2
      · intro e2 he2
        obtain ⟨heo, hel⟩ := hs2 kb hkb2 e2 he2
        exact ⟨heo, le_trans hel (le_trans hm0le (le_max_left _ _))⟩
      · rcases List.mem_singleton.mp hkb2 with rfl
        intro e2 he2
        have he2raw : e2 ∈ raw := (hmembucket e2).mp he2
        obtain ⟨heo, hel⟩ := hentries e2 he2raw
        exact ⟨heo, le_trans hel (le_max_left _ _)⟩
    · rcases max_choice m1 e.H with hm | hm
      · rw [hm]
        rcases hm1 with hc | ⟨e2, he2, hc⟩
        · rcases hs3 with hd | ⟨kb, hkb, e3, he3, hd⟩
          · exact Or.inl (hc.trans hd)
          · exact Or.inr ⟨kb, List.mem_append_left _ hkb, e3, he3, hc.trans hd⟩
        · exact Or.inr ⟨(pq, e :: t), List.mem_append_right _ (List.mem_singleton.mpr rfl),
            e2, (hmembucket e2).mpr he2, hc⟩
      · rw [hm]
        exact Or.inr ⟨(pq, e :: t), List.mem_append_right _ (List.mem_singleton.mpr rfl),
          e, List.mem_cons_self _ _, rfl⟩

/-- The builder invariant holds of any successful `setup_hci_queue` run. -/
theorem setup_hci_queue_inv (sys : ChemSystem α) (qs : QueueState α)
    (h : setup_hci_queue sys = .ok qs) : QInv sys qs := by
  unfold setup_hci_queue at h
  rcases (except_bind_ok _ _ _).mp h with ⟨st1, h1, h2⟩
  have hinit : QInv sys (⟨[], 0, 0⟩ : QueueState α) := by
    refine ⟨?_, ?_, Or.inl rfl⟩ <;> intro kb hkb <;> cases hkb
  have hst1 : QInv sys st1 :=
    foldlM_ok_invariant _ _ _ _ (fun x a y _ hf hx => ss_step_inv sys x y a hf hx) h1 hinit
  exact foldlM_ok_invariant _ _ _ _ (fun x a y _ hf hx => os_step_inv sys x y a hf hx) h2 hst1

/-- C1: after the Excitation Queue Builder (`setup_hci_queue`) finishes
    normally, every bucket of the queue holds its entries in non-increasing
    order of coupling magnitude `H`, and the reported global maximum
    `max_hci_queue_elem` bounds every entry, equals `0` when the queue has
    no entries, and is attained by some entry whenever one exists. -/
theorem c1_queue_sorted_and_max_correct (sys : ChemSystem α) (qs : QueueState α)
    (h : setup_hci_queue sys = .ok qs) :
    (∀ kb ∈ qs.queue, List.Sorted hrsGe kb.2) ∧
    (∀ kb ∈ qs.queue, ∀ e ∈ kb.2, e.H ≤ qs.max_hci_queue_elem) ∧
    ((∀ kb ∈ qs.queue, kb.2 = []) → qs.max_hci_queue_elem = 0) ∧
    ((∃ kb ∈ qs.queue, kb.2 ≠ []) →
      ∃ kb ∈ qs.queue, ∃ e ∈ kb.2, qs.max_hci_queue_elem = e.H) := by
  obtain ⟨h1, h2, h3⟩ := setup_hci_queue_inv sys qs h
  refine ⟨h1, fun kb hkb e he => (h2 kb hkb e he).2, ?_, ?_⟩
  · intro hall
    rcases h3 with hc | ⟨kb, hkb, e, he, -⟩
    · exact hc
    · rw [hall kb hkb] at he
      cases he
  · rintro ⟨kb0, hkb0, hne⟩
    rcases h3 with hc | hex
    · obtain ⟨e0, he0⟩ := List.exists_mem_of_ne_nil _ hne
      obtain ⟨⟨hpos, -⟩, hle⟩ := h2 kb0 hkb0 e0 he0
      rw [hc] at hle
      exact absurd (lt_of_lt_of_le hpos hle) (lt_irrefl 0)
    · exact hex

/-- C9: degenerate index combinations (`p==q`, `r==s`, or any origin index
    equal to a destination index) make `get_hci_queue_elem` yield magnitude
    zero without raising an error, and no entry of any bucket of a
    successfully built queue has zero magnitude or degenerate indices. -/
theorem c9_degenerate_and_zero_filtered (sys : ChemSystem α) :
    (∀ p q r s : Nat, (p = q ∨ r = s ∨ p = r ∨ q = s ∨ p = s ∨ q = r) →
        get_hci_queue_elem sys p q r s = .ok 0) ∧
    (∀ qs, setup_hci_queue sys = .ok qs → ∀ kb ∈ qs.queue, ∀ e ∈ kb.2,
        e.H ≠ 0 ∧ ¬(kb.1.1 = kb.1.2 ∨ e.r = e.s ∨ kb.1.1 = e.r ∨ kb.1.2 = e.s ∨
          kb.1.1 = e.s ∨ kb.1.2 = e.r)) := by
  refine ⟨fun p q r s hd => get_hci_queue_elem_degenerate sys p q r s hd, ?_⟩
  intro qs h kb hkb e he
  obtain ⟨-, h2, -⟩ := setup_hci_queue_inv sys qs h
  obtain ⟨⟨hpos, hok⟩, -⟩ := h2 kb hkb e he
  refine ⟨ne_of_gt hpos, ?_⟩
  intro hdeg
  have h0 := get_hci_queue_elem_degenerate sys kb.1.1 kb.1.2 e.r e.s hdeg
  rw [hok] at h0
  have : e.H = 0 := by injection h0
  exact absurd this (ne_of_gt hpos)

end ChemProofs

/-! ## Queue witness -/

/-- C1 witness: a concrete successful run of the builder satisfying the
    sortedness and maximum properties. -/
theorem c1_witness :
    setup_hci_queue sysC1 = .ok qsC1 ∧
      ((∀ kb ∈ qsC1.queue, List.Sorted hrsGe kb.2) ∧
       (∀ kb ∈ qsC1.queue, ∀ e ∈ kb.2, e.H ≤ qsC1.max_hci_queue_elem) ∧
       ((∀ kb ∈ qsC1.queue, kb.2 = []) → qsC1.max_hci_queue_elem = 0) ∧
       ((∃ kb ∈ qsC1.queue, kb.2 ≠ []) →
         ∃ kb ∈ qsC1.queue, ∃ e ∈ kb.2, qsC1.max_hci_queue_elem = e.H)) := by
  have hw : setup_hci_queue sysC1 = .ok qsC1 := by decide
  exact ⟨hw, c1_queue_sorted_and_max_correct sysC1 qsC1 hw⟩

/-! ## Properties of the connected-determinant enumerator -/

theorem self_ne_append_singleton {γ : Type} (l : List γ) (x : γ) : l ≠ l ++ [x] := by
  intro h
  have hlen := congrArg List.length h
  simp at hlen

section FcdProofs

variable {α : Type} [LinearOrderedCommRing α]

/-- Case analysis of one loop iteration: either it delivers nothing and the
    sink trace is unchanged, or all delivery conditions hold and it appends
    exactly the canonicalized pair. -/
theorem fcdStep_spec (sys : ChemSystem α) (det : Det) (eps_max eps_min : α)
    (st : Det × List (Det × α)) (p_id r : Nat) :
    (¬ fcdDeliveryCond sys det eps_max eps_min p_id r (fcdCandidate sys det p_id r st.1) ∧
       (fcdStep sys det eps_max eps_min st (p_id, r)).2 = st.2) ∨
    (fcdDeliveryCond sys det eps_max eps_min p_id r (fcdCandidate sys det p_id r st.1) ∧
       fcdStep sys det eps_max eps_min st (p_id, r) =
         (fcdRestore sys det p_id r
            (fcdDelivered sys det (fcdCandidate sys det p_id r st.1)).1,
          st.2 ++ [fcdDelivered sys det (fcdCandidate sys det p_id r st.1)])) := by
  unfold fcdStep fcdDeliveryCond
  dsimp only
  by_cases h1 : fcdBlocked sys det p_id r = true
  · rw [if_pos h1]
    refine Or.inl ⟨?_, rfl⟩
    intro hc
    rw [h1] at hc
    cases hc.1
  · have h1f : fcdBlocked sys det p_id r = false := by
      rcases Bool.dichotomy (fcdBlocked sys det p_id r) with hb | hb
      · exact hb
      · exact absurd hb h1
    rw [if_neg h1]
    by_cases h2 : sys.orb_sym r ≠ sys.orb_sym (fcdP sys det p_id)
    · rw [if_pos h2]
      exact Or.inl ⟨fun hc => h2 hc.2.1, rfl⟩
    · rw [if_neg h2]
      have h2eq : sys.orb_sym r = sys.orb_sym (fcdP sys det p_id) := not_not.mp h2
      by_cases h3 : sys.time_sym = true ∧ (fcdCandidate sys det p_id r st.1).up =
          (fcdCandidate sys det p_id r st.1).dn ∧ sys.z < 0
      · rw [if_pos h3]
        exact Or.inl ⟨fun hc => hc.2.2.1 h3, rfl⟩
      · rw [if_neg h3]
        by_cases h4 : sys.time_sym = true ∧ (fcdCandidate sys det p_id r st.1).up = det.dn ∧
            (fcdCandidate sys det p_id r st.1).dn = det.up
        · rw [if_pos h4]
          exact Or.inl ⟨fun hc => hc.2.2.2.1 h4, rfl⟩
        · rw [if_neg h4]
          by_cases h5 : |sys.get_hamiltonian_elem det (fcdCandidate sys det p_id r st.1)| >
              eps_max ∨
              |sys.get_hamiltonian_elem det (fcdCandidate sys det p_id r st.1)| < eps_min
          · rw [if_pos h5]
            refine Or.inl ⟨fun hc => ?_, rfl⟩
            rcases h5 with h5 | h5
            · exact absurd hc.2.2.2.2.2 (not_le.mpr h5)
            · exact absurd hc.2.2.2.2.1 (not_le.mpr h5)
          · rw [if_neg h5]
            push_neg at h5
            exact Or.inr ⟨⟨h1f, h2eq, h3, h4, h5.2, h5.1⟩, rfl⟩

/-- C2 (amended): a loop iteration of `find_connected_dets` delivers to the
    sink exactly when the destination is unoccupied, the irreps match, the
    time-reversal skips do not fire, and the raw Hamiltonian magnitude lies
    in the closed window `eps_min ≤ |H| ≤ eps_max`; in particular a
    candidate with `|H| = eps_max` is delivered.  Moreover
    `find_connected_dets` pre-multiplies both window bounds by `SQRT2` when
    time-reversal is enabled, and without time-reversal every delivered
    matrix element itself satisfies the closed window. -/
theorem c2_amended_closed_window (sys : ChemSystem α) (det : Det) (eps_max eps_min : α)
    (st : Det × List (Det × α)) (p_id r : Nat) :
    ((∃ d m, (fcdStep sys det eps_max eps_min st (p_id, r)).2 = st.2 ++ [(d, m)]) ↔
       fcdDeliveryCond sys det eps_max eps_min p_id r (fcdCandidate sys det p_id r st.1)) ∧
    (find_connected_dets sys det eps_max eps_min =
      ((fcdSteps sys).foldl
        (fcdStep sys det (if sys.time_sym = true then eps_max * sys.SQRT2 else eps_max)
          (if sys.time_sym = true then eps_min * sys.SQRT2 else eps_min)) (det, [])).2) ∧
    (sys.time_sym = false → ∀ dm ∈ find_connected_dets sys det eps_max eps_min,
       eps_min ≤ |dm.2| ∧ |dm.2| ≤ eps_max) := by
  refine ⟨?_, rfl, ?_⟩
  · rcases fcdStep_spec sys det eps_max eps_min st p_id r with ⟨hnc, heq⟩ | ⟨hc, heq⟩
    · constructor
      · rintro ⟨d, m, hdm⟩
        rw [heq] at hdm
        exact absurd hdm (self_ne_append_singleton _ _)
      · intro hc
        exact absurd hc hnc
    · constructor
      · intro _
        exact hc
      · intro _
        exact ⟨_, _, by rw [heq]⟩
  · intro hts dm hdm
    have hdel : ∀ cd : Det, fcdDelivered sys det cd = (cd, sys.get_hamiltonian_elem det cd) := by
      intro cd
      unfold fcdDelivered fcdScaled
      rw [hts]
      simp
    unfold find_connected_dets at hdm
    rw [hts] at hdm
    simp only [Bool.false_eq_true, if_false] at hdm
    refine foldl_invariant
      (P := fun st2 : Det × List (Det × α) =>
        ∀ x ∈ st2.2, eps_min ≤ |x.2| ∧ |x.2| ≤ eps_max) _ _ _
      ?_ (fun x hx => absurd hx (List.not_mem_nil x)) dm hdm
    intro x a ha hx
    rcases a with ⟨p_id2, r2⟩
    rcases fcdStep_spec sys det eps_max eps_min x p_id2 r2 with ⟨-, heq⟩ | ⟨hc, heq⟩
    · rw [heq]
      exact hx
    · rw [heq]
      intro y hy
      rcases List.mem_append.mp hy with hy2 | hy2
      · exact hx y hy2
      · rcases List.mem_singleton.mp hy2 with rfl
        rw [hdel]
        exact ⟨hc.2.2.2.2.1, hc.2.2.2.2.2⟩

/-- C5: with time-reversal symmetry enabled, (i) two sink deliveries of the
    same call that are spin-swaps of one another are the same determinant,
    so a determinant and a distinct spin-swapped partner never both appear;
    (ii) an iteration whose mutated candidate equals the source with up and
    down swapped delivers nothing; (iii) an iteration whose mutated
    candidate is spin-symmetric delivers nothing when `z < 0`. -/
theorem c5_time_reversal_representatives (sys : ChemSystem α) (det : Det)
    (eps_max_in eps_min_in : α) (hts : sys.time_sym = true) :
    (∀ d1 m1 d2 m2, (d1, m1) ∈ find_connected_dets sys det eps_max_in eps_min_in →
       (d2, m2) ∈ find_connected_dets sys det eps_max_in eps_min_in →
       d2.up = d1.dn → d2.dn = d1.up → d1 = d2) ∧
    (∀ (eps_max eps_min : α) (st : Det × List (Det × α)) (p_id r : Nat),
       (fcdCandidate sys det p_id r st.1).up = det.dn →
       (fcdCandidate sys det p_id r st.1).dn = det.up →
       (fcdStep sys det eps_max eps_min st (p_id, r)).2 = st.2) ∧
    (∀ (eps_max eps_min : α) (st : Det × List (Det × α)) (p_id r : Nat),
       (fcdCandidate sys det p_id r st.1).up = (fcdCandidate sys det p_id r st.1).dn →
       sys.z < 0 →
       (fcdStep sys det eps_max eps_min st (p_id, r)).2 = st.2) := by
  have hcanon : ∀ cd : Det, (fcdDelivered sys det cd).1.up ≤ (fcdDelivered sys det cd).1.dn := by
    intro cd
    unfold fcdDelivered
    by_cases hsw : sys.time_sym = true ∧ cd.dn < cd.up
    · rw [if_pos hsw]
      exact le_of_lt hsw.2
    · rw [if_neg hsw]
      have : ¬ cd.dn < cd.up := fun hlt => hsw ⟨hts, hlt⟩
      exact not_lt.mp this
  have hinv : ∀ dm ∈ find_connected_dets sys det eps_max_in eps_min_in,
      dm.1.up ≤ dm.1.dn := by
    intro dm hdm
    unfold find_connected_dets at hdm
    refine foldl_invariant
      (P := fun st2 : Det × List (Det × α) => ∀ x ∈ st2.2, x.1.up ≤ x.1.dn) _ _ _
      ?_ (fun x hx => absurd hx (List.not_mem_nil x)) dm hdm
    intro x a ha hx
    rcases a with ⟨p_id2, r2⟩
    rcases fcdStep_spec sys det _ _ x p_id2 r2 with ⟨-, heq⟩ | ⟨-, heq⟩
    · rw [heq]
      exact hx
    · rw [heq]
      intro y hy
      rcases List.mem_append.mp hy with hy2 | hy2
      · exact hx y hy2
      · rcases List.mem_singleton.mp hy2 with rfl
        exact hcanon _
  refine ⟨?_, ?_, ?_⟩
  · intro d1 m1 d2 m2 h1m h2m hup hdn
    have e1 := hinv (d1, m1) h1m
    have e2 := hinv (d2, m2) h2m
    rw [hup, hdn] at e2
    have heq : d1.up = d1.dn := le_antisymm e1 e2
    cases d1 with
    | mk u1 v1 =>
        cases d2 with
        | mk u2 v2 =>
            simp only at hup hdn heq
            rw [hup, hdn, heq]
  · intro eps_max eps_min st p_id r hu hd
    rcases fcdStep_spec sys det eps_max eps_min st p_id r with ⟨-, heq⟩ | ⟨hc, -⟩
    · exact heq
    · exact absurd ⟨hts, hu, hd⟩ hc.2.2.2.1
  · intro eps_max eps_min st p_id r hud hz
    rcases fcdStep_spec sys det eps_max eps_min st p_id r with ⟨-, heq⟩ | ⟨hc, -⟩
    · exact heq
    · exact absurd ⟨hts, hud, hz⟩ hc.2.2.1

/-- C6: with time-reversal symmetry enabled, the delivered matrix element
    equals the raw Hamiltonian element times `SQRT2_INV` when the source is
    spin-symmetric and the candidate is not, times `SQRT2` in the reverse
    transition, and unchanged when source and candidate are alike; the
    delivered pair additionally picks up the factor `z` with its up and
    down halves swapped exactly when the candidate's up half exceeds its
    down half in the determinant order; and every sink delivery of a loop
    iteration is this canonicalized pair of the iteration's candidate. -/
theorem c6_time_reversal_scaling (sys : ChemSystem α) (det : Det)
    (hts : sys.time_sym = true) (cd : Det) :
    (det.up = det.dn → cd.up ≠ cd.dn →
       fcdScaled sys det cd = sys.get_hamiltonian_elem det cd * sys.SQRT2_INV) ∧
    (det.up ≠ det.dn → cd.up = cd.dn →
       fcdScaled sys det cd = sys.get_hamiltonian_elem det cd * sys.SQRT2) ∧
    ((det.up = det.dn ↔ cd.up = cd.dn) →
       fcdScaled sys det cd = sys.get_hamiltonian_elem det cd) ∧
    (cd.dn < cd.up →
       fcdDelivered sys det cd = (⟨cd.dn, cd.up⟩, fcdScaled sys det cd * (sys.z : α))) ∧
    (¬ cd.dn < cd.up → fcdDelivered sys det cd = (cd, fcdScaled sys det cd)) ∧
    (∀ (eps_max eps_min : α) (st : Det × List (Det × α)) (p_id r : Nat),
       (fcdStep sys det eps_max eps_min st (p_id, r)).2 ≠ st.2 →
       (fcdStep sys det eps_max eps_min st (p_id, r)).2 =
         st.2 ++ [fcdDelivered sys det (fcdCandidate sys det p_id r st.1)]) := by
  refine ⟨?_, ?_, ?_, ?_, ?_, ?_⟩
  · intro hdet hcd
    unfold fcdScaled
    rw [hts]
    simp only [if_true]
    rw [if_pos ⟨hdet, hcd⟩]
  · intro hdet hcd
    unfold fcdScaled
    rw [hts]
    simp only [if_true]
    rw [if_neg (fun hand => hand.2 hcd), if_pos ⟨hdet, hcd⟩]
  · intro hiff
    unfold fcdScaled
    rw [hts]
    simp only [if_true]
    by_cases hdet : det.up = det.dn
    · rw [if_neg (fun hand => hand.2 (hiff.mp hdet)), if_neg (fun hand => hand.1 hdet)]
    · rw [if_neg (fun hand => hdet hand.1),
        if_neg (fun hand => hdet (hiff.mpr hand.2))]
  · intro hlt
    unfold fcdDelivered
    rw [if_pos ⟨hts, hlt⟩]
  · intro hnlt
    unfold fcdDelivered
    rw [if_neg (fun hand => hnlt hand.2)]
  · intro eps_max eps_min st p_id r hne
    rcases fcdStep_spec sys det eps_max eps_min st p_id r with ⟨-, heq⟩ | ⟨-, heq⟩
    · exact absurd heq hne
    · rw [heq]

end FcdProofs

/-! ## Enumerator counterexample and witnesses -/

/-- C2 counterexample: with `eps_max = 5` and a candidate whose matrix
    element magnitude is exactly `5`, the candidate IS delivered (the
    window test uses a strict `>` against `eps_max`), refuting the claimed
    half-open window `eps_min ≤ |H| < eps_max` that would exclude it. -/
theorem c2_counterexample_boundary_delivered :
    find_connected_dets sysC2 ⟨1, 0⟩ 5 1 = [(⟨2, 0⟩, 5)] := by decide

/-- C5 witness: the concrete time-reversal system satisfies the
    representative-uniqueness and skip properties. -/
theorem c5_witness :
    sysC7.time_sym = true ∧
      ((∀ d1 m1 d2 m2, (d1, m1) ∈ find_connected_dets sysC7 ⟨1, 1⟩ 100 0 →
          (d2, m2) ∈ find_connected_dets sysC7 ⟨1, 1⟩ 100 0 →
          d2.up = d1.dn → d2.dn = d1.up → d1 = d2) ∧
       (∀ (eps_max eps_min : Int) (st : Det × List (Det × Int)) (p_id r : Nat),
          (fcdCandidate sysC7 ⟨1, 1⟩ p_id r st.1).up = (Det.mk 1 1).dn →
          (fcdCandidate sysC7 ⟨1, 1⟩ p_id r st.1).dn = (Det.mk 1 1).up →
          (fcdStep sysC7 ⟨1, 1⟩ eps_max eps_min st (p_id, r)).2 = st.2) ∧
       (∀ (eps_max eps_min : Int) (st : Det × List (Det × Int)) (p_id r : Nat),
          (fcdCandidate sysC7 ⟨1, 1⟩ p_id r st.1).up =
            (fcdCandidate sysC7 ⟨1, 1⟩ p_id r st.1).dn →
          sysC7.z < 0 →
          (fcdStep sysC7 ⟨1, 1⟩ eps_max eps_min st (p_id, r)).2 = st.2)) :=
  ⟨rfl, c5_time_reversal_representatives sysC7 ⟨1, 1⟩ 100 0 rfl⟩

/-- C6 witness: on a concrete time-reversal iteration, the delivered pair
    is the candidate with halves swapped and element scaled by
    `SQRT2_INV` and `z`. -/
theorem c6_witness :
    sysC7.time_sym = true ∧
      fcdScaled sysC7 ⟨1, 1⟩ ⟨2, 1⟩ =
        sysC7.get_hamiltonian_elem ⟨1, 1⟩ ⟨2, 1⟩ * sysC7.SQRT2_INV ∧
      fcdDelivered sysC7 ⟨1, 1⟩ ⟨2, 1⟩ =
        (⟨1, 2⟩, fcdScaled sysC7 ⟨1, 1⟩ ⟨2, 1⟩ * (sysC7.z : Int)) ∧
      (fcdStep sysC7 ⟨1, 1⟩ 200 0 (⟨1, 1⟩, []) (0, 1)).2 =
        [] ++ [fcdDelivered sysC7 ⟨1, 1⟩ (fcdCandidate sysC7 ⟨1, 1⟩ 0 1 ⟨1, 1⟩)] := by
  refine ⟨rfl, ?_, ?_, ?_⟩
  · exact (c6_time_reversal_scaling sysC7 ⟨1, 1⟩ rfl ⟨2, 1⟩).1 rfl (by decide)
  · exact (c6_time_reversal_scaling sysC7 ⟨1, 1⟩ rfl ⟨2, 1⟩).2.2.2.1 (by decide)
  · exact (c6_time_reversal_scaling sysC7 ⟨1, 1⟩ rfl ⟨2, 1⟩).2.2.2.2.2 200 0 (⟨1, 1⟩, [])
      0 1 (by decide)

/-- C2 witness for the amended theorem: on the concrete boundary system the
    delivery condition holds (with `|H| = eps_max` exactly), the step
    delivers, and the delivered element lies in the closed window. -/
theorem c2_witness :
    fcdDeliveryCond sysC2 ⟨1, 0⟩ 5 1 0 1 (fcdCandidate sysC2 ⟨1, 0⟩ 0 1 ⟨1, 0⟩) ∧
      (∃ d m, (fcdStep sysC2 ⟨1, 0⟩ 5 1 (⟨1, 0⟩, []) (0, 1)).2 =
        ((⟨1, 0⟩, []) : Det × List (Det × Int)).2 ++ [(d, m)]) ∧
      sysC2.time_sym = false ∧
      ((1 : Int) ≤ |((⟨2, 0⟩, (5 : Int)) : Det × Int).2| ∧
        |((⟨2, 0⟩, (5 : Int)) : Det × Int).2| ≤ 5) := by
  have hcond : fcdDeliveryCond sysC2 ⟨1, 0⟩ 5 1 0 1 (fcdCandidate sysC2 ⟨1, 0⟩ 0 1 ⟨1, 0⟩) :=
    ⟨by decide, by decide, by decide, by decide, by decide, by decide⟩
  refine ⟨hcond, (c2_amended_closed_window sysC2 ⟨1, 0⟩ 5 1 (⟨1, 0⟩, []) 0 1).1.mpr hcond,
    rfl, ?_⟩
  exact (c2_amended_closed_window sysC2 ⟨1, 0⟩ 5 1 (⟨1, 0⟩, []) 0 1).2.2 rfl
    (⟨2, 0⟩, 5) (by decide)

/-- C7 (code bug): the enumerator delivers `⟨2, 4⟩` (up `{1}`, down `{2}`)
    from the source `⟨1, 1⟩` (up `{0}`, down `{0}`) — a determinant whose
    two spin channels BOTH differ from the source's (and from the source's
    spin-swap), i.e. more than one spin-orbital move away.  Moreover, even
    without time-reversal, after a window rejection the enumerator delivers
    `⟨6, 0⟩` from source `⟨1, 0⟩` — a determinant with two electrons
    instead of one.  The `continue` paths and the canonicalization swap
    skip/corrupt the in-place restoration of the scratch determinant. -/
theorem c7_code_bug_two_move_delivery :
    ((⟨2, 4⟩, (3 : Int)) ∈ find_connected_dets sysC7 ⟨1, 1⟩ 100 0 ∧
      (Det.mk 2 4).up ≠ (Det.mk 1 1).up ∧ (Det.mk 2 4).dn ≠ (Det.mk 1 1).dn ∧
      (Det.mk 4 2).up ≠ (Det.mk 1 1).up ∧ (Det.mk 4 2).dn ≠ (Det.mk 1 1).dn) ∧
    (find_connected_dets sysC7b ⟨1, 0⟩ 100 1 = [(⟨6, 0⟩, 1)] ∧
      elecCount ⟨6, 0⟩ = 2 ∧ elecCount ⟨1, 0⟩ = 1) := by decide

/-! ## Conjugate-gradient control flow -/

theorem cgLoop_ok_bounds (mulGreen : List Cplx → List Cplx) (cabs : Cplx → ℚ) :
    ∀ (fuel : Nat) (x r p : List Cplx) (residual : ℚ) (iter : Nat),
      101 - iter ≤ fuel → iter ≤ 100 → ∀ res : CgResult,
      cgLoop mulGreen cabs x r p residual iter = .ok res →
      res.residual ≤ cgTol ∧ res.iter ≤ 100 := by
  intro fuel
  induction fuel with
  | zero =>
      intro x r p residual iter hfuel hle res h
      omega
  | succ n ih =>
      intro x r p residual iter hfuel hle res h
      rw [cgLoop] at h
      split at h
      · split at h
        · injection h
        · next hcap =>
            exact ih _ _ _ _ _ (by omega) (by omega) res h
      · next hexit =>
          injection h with h
          rw [← h]
          exact ⟨not_lt.mp hexit, hle⟩

theorem cgLoop_error_msg (mulGreen : List Cplx → List Cplx) (cabs : Cplx → ℚ) :
    ∀ (fuel : Nat) (x r p : List Cplx) (residual : ℚ) (iter : Nat),
      101 - iter ≤ fuel → ∀ msg : String,
      cgLoop mulGreen cabs x r p residual iter = .error msg →
      msg = "cg does not converge" := by
  intro fuel
  induction fuel with
  | zero =>
      intro x r p residual iter hfuel msg h
      rw [cgLoop] at h
      split at h
      · split at h
        · injection h with h
          exact h.symm
        · next hcap =>
            omega
      · injection h
  | succ n ih =>
      intro x r p residual iter hfuel msg h
      rw [cgLoop] at h
      split at h
      · split at h
        · injection h with h
          exact h.symm
        · next hcap =>
            exact ih _ _ _ _ _ (by omega) msg h
      · injection h

/-- C4: `cg` returns normally only with a final reported residual — the
    magnitude `|r.r|` of the residual's self inner product, not its square
    root — at most the fixed tolerance `1.0e-15`, having used at most the
    hard cap of 100 iterations; any abnormal outcome is precisely the fatal
    `"cg does not converge"` error, never a partial result. -/
theorem c4_cg_converged_or_fatal (mulGreen : List Cplx → List Cplx) (cabs : Cplx → ℚ)
    (b : List ℚ) (x0 : List Cplx) :
    (∀ res : CgResult, cg mulGreen cabs b x0 = .ok res →
       res.residual ≤ cgTol ∧ res.iter ≤ 100) ∧
    (∀ msg : String, cg mulGreen cabs b x0 = .error msg →
       msg = "cg does not converge") := by
  constructor
  · intro res h
    unfold cg at h
    exact cgLoop_ok_bounds mulGreen cabs 101 _ _ _ _ _ (by omega) (by omega) res h
  · intro msg h
    unfold cg at h
    exact cgLoop_error_msg mulGreen cabs 101 _ _ _ _ _ (by omega) msg h

/-- C4 witness: a concrete (empty-system) run of `cg` that returns normally
    with residual `0` after one iteration. -/
theorem c4_witness :
    cg (fun v => v) (fun c => |c.1| + |c.2|) [] [] = .ok ⟨[], 0, 1⟩ ∧
      (CgResult.mk [] 0 1).residual ≤ cgTol ∧ (CgResult.mk [] 0 1).iter ≤ 100 := by
  have hrun : cg (fun v => v) (fun c => |c.1| + |c.2|) [] [] = .ok ⟨[], 0, 1⟩ := by
    unfold cg
    dsimp only
    rw [cgLoop]
    rw [if_pos (by norm_num [cgTol])]
    dsimp only [dotc, czero, List.zipWith_nil_right, List.zipWith_nil_left, List.foldl_nil]
    rw [if_neg (by norm_num)]
    rw [cgLoop]
    rw [if_neg (by norm_num [cgTol])]
    norm_num
  exact ⟨hrun, (c4_cg_converged_or_fatal (fun v => v) (fun c => |c.1| + |c.2|) [] []).1
    ⟨[], 0, 1⟩ hrun⟩

/-! ## Extended-basis construction -/

theorem idLookup_eq_none_iff (l : List (Det × Nat)) (d : Det) :
    idLookup l d = none ↔ ∀ kv ∈ l, kv.1 ≠ d := by
  induction l with
  | nil => simp [idLookup]
  | cons a t ih =>
      rcases a with ⟨k, v⟩
      by_cases hk : k = d
      · constructor
        · intro h
          rw [show idLookup ((k, v) :: t) d = some v from by simp [idLookup, hk]] at h
          cases h
        · intro hall
          exact absurd hk (hall (k, v) (List.mem_cons_self _ _))
      · rw [show idLookup ((k, v) :: t) d = idLookup t d from by simp [idLookup, hk]]
        simp only [List.forall_mem_cons]
        constructor
        · intro h
          exact ⟨hk, ih.mp h⟩
        · rintro ⟨-, h⟩
          exact ih.mpr h

theorem insertPdet_inv (st : PdetState) (d : Det) (h : PdetInv st) :
    PdetInv (insertPdet st d) := by
  obtain ⟨hnd, hzip⟩ := h
  unfold insertPdet
  rcases hl : idLookup st.ids d with - | i
  · have hdnot : d ∉ st.dets := by
      intro hmem
      have hkeys : st.dets = st.ids.map Prod.fst := by
        rw [hzip, List.map_fst_zip]
        rw [List.length_range]
      rw [hkeys] at hmem
      obtain ⟨kv, hkv, hfst⟩ := List.mem_map.mp hmem
      exact (idLookup_eq_none_iff st.ids d).mp hl kv hkv hfst
    constructor
    · rw [List.nodup_append]
      refine ⟨hnd, List.nodup_singleton d, ?_⟩
      intro x hx hxs
      rcases List.mem_singleton.mp hxs with rfl
      exact hdnot hx
    · dsimp only
      rw [List.length_append, List.length_singleton, List.range_succ, hzip,
        List.zip_append (by rw [List.length_range])]
      rfl
  · exact ⟨hnd, hzip⟩

theorem insertPdet_mem (st : PdetState) (d : Det) :
    ∀ x ∈ (insertPdet st d).dets, x ∈ st.dets ∨ x = d := by
  intro x hx
  unfold insertPdet at hx
  rcases hl : idLookup st.ids d with - | i <;> rw [hl] at hx
  · rcases List.mem_append.mp hx with h2 | h2
    · exact Or.inl h2
    · exact Or.inr (List.mem_singleton.mp h2)
  · exact Or.inl hx

theorem construct_pdets_inv (dets_store : List Det) (n_orbs : Nat) :
    PdetInv (construct_pdets dets_store n_orbs) := by
  unfold construct_pdets
  refine foldl_invariant (P := PdetInv) _ _ _ ?_ ⟨List.nodup_nil, rfl⟩
  intro x det _ hx
  refine foldl_invariant (P := PdetInv) _ _ _ ?_ hx
  intro x2 k _ hx2
  dsimp only
  split_ifs <;>
    first
      | exact insertPdet_inv _ _ (insertPdet_inv _ _ hx2)
      | exact insertPdet_inv _ _ hx2
      | exact hx2

theorem construct_pdets_gen (dets_store : List Det) (n_orbs : Nat) :
    ∀ d ∈ (construct_pdets dets_store n_orbs).dets, IsInsertion dets_store n_orbs d := by
  unfold construct_pdets
  refine foldl_invariant
    (P := fun st : PdetState => ∀ d ∈ st.dets, IsInsertion dets_store n_orbs d) _ _ _
    ?_ (fun d hd => absurd hd (List.not_mem_nil d))
  intro x det hdet hx
  refine foldl_invariant
    (P := fun st : PdetState => ∀ d ∈ st.dets, IsInsertion dets_store n_orbs d) _ _ _
    ?_ hx
  intro x2 k hk hx2
  have hk2 : k < n_orbs := List.mem_range.mp hk
  dsimp only
  by_cases hup : hdHas det.up k = false
  · by_cases hdn : hdHas det.dn k = false
    · rw [if_pos hup, if_pos hdn]
      intro d hd
      rcases insertPdet_mem _ _ d hd with h2 | h2
      · rcases insertPdet_mem _ _ d h2 with h3 | h3
        · exact hx2 d h3
        · exact ⟨det, hdet, k, hk2, Or.inl ⟨hup, h3⟩⟩
      · exact ⟨det, hdet, k, hk2, Or.inr ⟨hdn, h2⟩⟩
    · rw [if_pos hup, if_neg hdn]
      intro d hd
      rcases insertPdet_mem _ _ d hd with h2 | h2
      · exact hx2 d h2
      · exact ⟨det, hdet, k, hk2, Or.inl ⟨hup, h2⟩⟩
  · by_cases hdn : hdHas det.dn k = false
    · rw [if_neg hup, if_pos hdn]
      intro d hd
      rcases insertPdet_mem _ _ d hd with h2 | h2
      · exact hx2 d h2
      · exact ⟨det, hdet, k, hk2, Or.inr ⟨hdn, h2⟩⟩
    · rw [if_neg hup, if_neg hdn]
      exact hx2

/-- C8: the extended basis built by `construct_pdets` is deduplicated (each
    determinant appears exactly once), the determinant-to-index map pairs
    each stored determinant with its insertion position (index assignment
    order equals insertion order), and the coefficient vector is
    `n_pdets` zeros. -/
theorem c8_pdets_dedup_index_zero_coefs (dets_store : List Det) (n_orbs : Nat) :
    (construct_pdets dets_store n_orbs).dets.Nodup ∧
    (construct_pdets dets_store n_orbs).ids =
      (construct_pdets dets_store n_orbs).dets.zip
        (List.range (construct_pdets dets_store n_orbs).dets.length) ∧
    (green_coefs dets_store n_orbs).length = n_pdets_of dets_store n_orbs ∧
    ∀ c ∈ green_coefs dets_store n_orbs, c = (0 : ℚ) := by
  obtain ⟨hnd, hzip⟩ := construct_pdets_inv dets_store n_orbs
  refine ⟨hnd, hzip, ?_, ?_⟩
  · unfold green_coefs
    rw [List.length_replicate]
  · intro c hc
    unfold green_coefs at hc
    exact List.eq_of_mem_replicate hc

/-- C8 witness: the concrete extended basis of `dsC10` is duplicate-free
    with insertion-order indices and an all-zero coefficient vector. -/
theorem c8_witness :
    (construct_pdets dsC10 2).dets.Nodup ∧
      (construct_pdets dsC10 2).ids =
        (construct_pdets dsC10 2).dets.zip
          (List.range (construct_pdets dsC10 2).dets.length) ∧
      (green_coefs dsC10 2).length = n_pdets_of dsC10 2 ∧
      (0 : ℚ) ∈ green_coefs dsC10 2 ∧ (0 : ℚ) = 0 := by
  obtain ⟨h1, h2, h3, h4⟩ := c8_pdets_dedup_index_zero_coefs dsC10 2
  have hmem : (0 : ℚ) ∈ green_coefs dsC10 2 := by decide
  exact ⟨h1, h2, h3, hmem, h4 0 hmem⟩

/-! ## Electron counting for the extended basis -/

theorem testBit_imp_lt (h x : Nat) (ht : h.testBit x = true) : x < h + 1 := by
  have h2x : 2 ^ x ≤ h := by
    by_contra hcon
    rw [Nat.testBit_lt_two_pow (by omega)] at ht
    cases ht
  have hx2 : x < 2 ^ x := Nat.lt_two_pow x
  omega

theorem mem_bitFinset (h x : Nat) : x ∈ bitFinset h ↔ h.testBit x = true := by
  unfold bitFinset
  rw [Finset.mem_filter, Finset.mem_range]
  constructor
  · rintro ⟨-, hb⟩
    exact hb
  · intro hb
    exact ⟨testBit_imp_lt h x hb, hb⟩

theorem bitFinset_set (h k : Nat) :
    bitFinset (hdSet h k) = insert k (bitFinset h) := by
  ext x
  rw [mem_bitFinset, Finset.mem_insert, mem_bitFinset]
  unfold hdSet
  simp only [Nat.testBit_lor, Bool.or_eq_true, Nat.testBit_two_pow, decide_eq_true_eq]
  constructor
  · rintro (hb | hb)
    · exact Or.inr hb
    · exact Or.inl hb.symm
  · rintro (hb | hb)
    · exact Or.inr hb.symm
    · exact Or.inl hb

theorem card_bitFinset_set (h k : Nat) (hk : h.testBit k = false) :
    (bitFinset (hdSet h k)).card = (bitFinset h).card + 1 := by
  rw [bitFinset_set h k, Finset.card_insert_of_not_mem]
  rw [mem_bitFinset, hk]
  intro hcon
  cases hcon

theorem elecCount_insert_up (d0 : Det) (k : Nat) (hk : hdHas d0.up k = false) :
    elecCount ⟨hdSet d0.up k, d0.dn⟩ = elecCount d0 + 1 := by
  unfold elecCount
  dsimp only
  rw [card_bitFinset_set d0.up k hk]
  omega

theorem elecCount_insert_dn (d0 : Det) (k : Nat) (hk : hdHas d0.dn k = false) :
    elecCount ⟨d0.up, hdSet d0.dn k⟩ = elecCount d0 + 1 := by
  unfold elecCount
  dsimp only
  rw [card_bitFinset_set d0.dn k hk]
  omega

/-- C10: when all primary determinants carry `N` electrons, every member of
    the extended basis is some primary determinant with exactly one
    electron inserted into an unoccupied spin-orbital, hence carries `N + 1`
    electrons and is not itself a primary determinant. -/
theorem c10_pdets_single_insertion (dets_store : List Det) (n_orbs N : Nat)
    (hN : ∀ d ∈ dets_store, elecCount d = N) :
    ∀ d ∈ (construct_pdets dets_store n_orbs).dets,
      IsInsertion dets_store n_orbs d ∧ elecCount d = N + 1 ∧ d ∉ dets_store := by
  intro d hd
  have hins := construct_pdets_gen dets_store n_orbs d hd
  have hcount : elecCount d = N + 1 := by
    obtain ⟨d0, hd0, k, -, hcase⟩ := hins
    rcases hcase with ⟨hk, rfl⟩ | ⟨hk, rfl⟩
    · rw [elecCount_insert_up d0 k hk, hN d0 hd0]
    · rw [elecCount_insert_dn d0 k hk, hN d0 hd0]
  refine ⟨hins, hcount, ?_⟩
  intro hdmem
  rw [hN d hdmem] at hcount
  omega

/-- C10 witness: the concrete two-electron primary determinant yields
    extended determinants that are single insertions with three electrons
    and are not primary. -/
theorem c10_witness :
    (∀ d ∈ dsC10, elecCount d = 2) ∧
      (IsInsertion dsC10 2 ⟨3, 1⟩ ∧ elecCount ⟨3, 1⟩ = 2 + 1 ∧ Det.mk 3 1 ∉ dsC10) := by
  have hN : ∀ d ∈ dsC10, elecCount d = 2 := by decide
  exact ⟨hN, c10_pdets_single_insertion dsC10 2 2 hN ⟨3, 1⟩ (by decide)⟩

/-! ## Unimplemented Dooh/Dih inversion handling -/

section DoohProofs

variable {α : Type} [LinearOrderedCommRing α]

theorem foldlM_all_error {ε β γ : Type} (f : β → γ → Except ε β) (l : List γ) (e : ε)
    (hf : ∀ b x, x ∈ l → f b x = .error e) (b : β) (hne : l ≠ []) :
    List.foldlM f b l = .error e := by
  cases l with
  | nil => exact absurd rfl hne
  | cons a t =>
      rw [List.foldlM_cons, hf b a (List.mem_cons_self _ _)]
      rfl

theorem ss_collect_dooh (sys : ChemSystem α) (h1 : sys.point_group = PointGroup.Dooh)
    (h2 : 1 ≤ sys.n_orbs) (p q : Nat) : ss_collect sys p q = .error (.exited 0) := by
  obtain ⟨k, hk⟩ := Nat.exists_eq_add_of_le h2
  have hk2 : sys.n_orbs = k + 1 := by omega
  unfold ss_collect
  rw [hk2, List.range_succ_eq_map, List.foldlM_cons]
  simp only [h1, if_pos]
  rfl

theorem os_collect_dooh (sys : ChemSystem α) (h1 : sys.point_group = PointGroup.Dooh)
    (h2 : 1 ≤ sys.n_orbs) (p q : Nat) (st0 : List (Hrs α) × Nat × α) :
    os_collect sys p q st0 = .error (.exited 0) := by
  obtain ⟨k, hk⟩ := Nat.exists_eq_add_of_le h2
  have hk2 : sys.n_orbs = k + 1 := by omega
  unfold os_collect
  rw [hk2, List.range_succ_eq_map, List.foldlM_cons]
  simp only [h1, if_pos]
  rfl

theorem ss_step_dooh (sys : ChemSystem α) (h1 : sys.point_group = PointGroup.Dooh)
    (h2 : 1 ≤ sys.n_orbs) (st : QueueState α) (pq : Nat × Nat) :
    ss_step sys st pq = .error (.exited 0) := by
  unfold ss_step
  rw [ss_collect_dooh sys h1 h2 pq.1 pq.2]
  rfl

theorem os_step_dooh (sys : ChemSystem α) (h1 : sys.point_group = PointGroup.Dooh)
    (h2 : 1 ≤ sys.n_orbs) (st : QueueState α) (pq : Nat × Nat) :
    os_step sys st pq = .error (.exited 0) := by
  unfold os_step
  rw [os_collect_dooh sys h1 h2 pq.1 pq.2]
  rfl

theorem sameSpinPairs_ne_nil {n : Nat} (h : 2 ≤ n) : sameSpinPairs n ≠ [] := by
  have hmem : (0, 1) ∈ sameSpinPairs n := by
    unfold sameSpinPairs rangeFrom
    simp only [List.mem_flatMap, List.mem_map, List.mem_range]
    exact ⟨0, by omega, ⟨1, ⟨⟨0, by omega, by omega⟩, rfl⟩⟩⟩
  intro hnil
  rw [hnil] at hmem
  cases hmem

theorem oppSpinPairs_ne_nil {n : Nat} (h : 1 ≤ n) : oppSpinPairs n ≠ [] := by
  have hmem : (0, n) ∈ oppSpinPairs n := by
    unfold oppSpinPairs rangeFrom
    simp only [List.mem_flatMap, List.mem_map, List.mem_range]
    exact ⟨0, by omega, ⟨n, ⟨⟨0, by omega, by omega⟩, rfl⟩⟩⟩
  intro hnil
  rw [hnil] at hmem
  cases hmem

end DoohProofs

/-- C3 counterexample: with the `Dih` point group the builder terminates
    the program via `exit(0)` — a silent termination with success status
    carrying no diagnostic — rather than raising an explicit
    "unsupported symmetry" configuration error. -/
theorem c3_counterexample : setup_hci_queue sysC3 = .error (Fatal.exited 0) := by decide

/-- C3 (amended): when the configured point group is Dooh/Dih and there is
    at least one orbital, running the Excitation Queue Builder terminates
    the program immediately via `exit(0)` (silently, with success exit
    status and no diagnostic) and produces no queue. -/
theorem c3_amended_dooh_exits_silently {α : Type} [LinearOrderedCommRing α]
    (sys : ChemSystem α) (h1 : sys.point_group = PointGroup.Dooh)
    (h2 : 1 ≤ sys.n_orbs) : setup_hci_queue sys = .error (Fatal.exited 0) := by
  unfold setup_hci_queue
  rcases Nat.lt_or_ge sys.n_orbs 2 with hlt | hge
  · have hn1 : sys.n_orbs = 1 := by omega
    simp only [hn1]
    have hss : sameSpinPairs 1 = [] := rfl
    have hos : oppSpinPairs 1 = [(0, 1)] := rfl
    rw [hss, hos, List.foldlM_nil]
    have hstep := os_step_dooh sys h1 h2 (⟨[], 0, 0⟩ : QueueState α) (0, 1)
    simp only [pure_bind]
    rw [List.foldlM_cons, hstep]
    rfl
  · rw [foldlM_all_error (ss_step sys) _ (Fatal.exited 0)
      (fun b x _ => ss_step_dooh sys h1 (by omega) b x) _ (sameSpinPairs_ne_nil hge)]
    rfl

/-- C3 witness for the amended theorem: the hypotheses hold of the concrete
    `"Dih"` system and the conclusion follows by the theorem. -/
theorem c3_witness :
    sysC3.point_group = PointGroup.Dooh ∧ 1 ≤ sysC3.n_orbs ∧
      setup_hci_queue sysC3 = .error (Fatal.exited 0) := by
  have hpg : sysC3.point_group = PointGroup.Dooh := by decide
  have hn : 1 ≤ sysC3.n_orbs := by decide
  exact ⟨hpg, hn, c3_amended_dooh_exits_silently sysC3 hpg hn⟩

/-- C9 witness: a degenerate combination yields `.ok 0` on the concrete
    system, and the concrete queue entry of `sysC1` is non-zero and
    non-degenerate. -/
theorem c9_witness :
    get_hci_queue_elem sysC1 5 5 0 1 = .ok 0 ∧
      ((1 : Int) ≠ 0 ∧ ¬((0 : Nat) = 2 ∨ (1 : Nat) = 3 ∨ (0 : Nat) = 1 ∨ (2 : Nat) = 3 ∨
        (0 : Nat) = 3 ∨ (2 : Nat) = 1)) := by
  have hw : setup_hci_queue sysC1 = .ok qsC1 := by decide
  exact ⟨(c9_degenerate_and_zero_filtered sysC1).1 5 5 0 1 (Or.inl rfl),
    (c9_degenerate_and_zero_filtered sysC1).2 qsC1 hw ((0, 2), [⟨1, 1, 3⟩]) (by decide)
      ⟨1, 1, 3⟩ (by decide)⟩
